import Mathlib

/-!
# Verification of the Norwegian election seat-allocation core (`src/old.app.py`)

Shallow embedding of the allocation core of `NorwayElectionSimulator`:

* `modified_sainte_lague_allocation` (source lines 15-63),
* `simulate_from_percentages` (source lines 65-83),
* the step-by-step trace recreated inside `streamlit_app` (source lines 304-338).

Modelling conventions:

* A Python `Dict[str, int]` is an association list `List (String × ℤ)` in
  insertion order; key uniqueness, where a property needs it, is the
  hypothesis that the list of first components has no duplicates.
* Python float arithmetic on quotients is modelled exactly over `ℚ`
  (the divisor `1.4` is `7/5`, the default threshold `0.04` is `1/25`).
* Python's `max(quotients, key=quotients.get)` returns the first key
  attaining the maximal value; `firstMax` below has exactly that semantics.
* The only exception the source code can raise on a non-empty vote dict is
  `ZeroDivisionError` (line 31 divides by `total_valid_votes`); fallible
  behaviour is modelled with `Except PyError`.
-/

namespace NorwayElection

/-- Python exceptions that `modified_sainte_lague_allocation` can raise. -/
inductive PyError where
  | zeroDivisionError
deriving DecidableEq

/-- Modified Sainte-Laguë divisors (source lines 47-51): `1.4` for a party's
first seat, then `2 * current_seats + 1`. -/
def divisor (n : ℕ) : ℚ := if n = 0 then 7 / 5 else 2 * n + 1

/-- First element of `l` attaining the maximal value of `f`: the semantics of
Python's `max(l, key=f)` (source line 56 / 326), which replaces the current
best only on a strictly greater value, hence keeps the earliest maximum. -/
def firstMax {α : Type} (f : α → ℚ) : List α → Option α
  | [] => none
  | a :: as =>
    match firstMax f as with
    | none => some a
    | some m => some (if f a < f m then m else a)

/-- `total_valid_votes = sum(votes.values())` (source line 27). -/
def totalVotes (votes : List (String × ℤ)) : ℤ := (votes.map Prod.snd).sum

/-- The threshold filter (source lines 28-32): keep the parties with
`vote_count / total_valid_votes >= threshold`, in insertion order. -/
def qualifiedParties (votes : List (String × ℤ)) (threshold : ℚ) :
    List (String × ℤ) :=
  votes.filter fun pw => decide (threshold ≤ (pw.2 : ℚ) / (totalVotes votes : ℚ))

/-- A party's current quotient `vote_count / divisor` given the running seat
counts `s` (source lines 44-53). -/
def quotientOf (s : String → ℕ) (pw : String × ℤ) : ℚ :=
  (pw.2 : ℚ) / divisor (s pw.1)

/-- One round of the allocation loop (source lines 42-57): award a seat to the
party with the highest quotient (first maximal on ties, as Python `max`). -/
def allocStep (Q : List (String × ℤ)) (s : String → ℕ) : String → ℕ :=
  match firstMax (quotientOf s) Q with
  | none => s
  | some m => fun n => if n = m.1 then s n + 1 else s n

/-- Seat counts after `t` rounds of the loop `for _ in range(total_seats)`
(source line 41), starting from the all-zero state (source line 38). -/
def allocSeats (Q : List (String × ℤ)) : ℕ → String → ℕ
  | 0 => fun _ => 0
  | t + 1 => allocStep Q (allocSeats Q t)

/-- `modified_sainte_lague_allocation` (source lines 15-63).

The guard mirrors line 31: when the vote dict is non-empty and the vote total
is `0`, Python evaluates `0 / 0` for the first party and raises
`ZeroDivisionError` (an empty dict runs the comprehension zero times and
raises nothing).  `range(total_seats)` is empty for a negative argument,
hence `total_seats.toNat` rounds.  The final dict (lines 60-63) keeps the
insertion order of `votes` and overwrites qualified parties' zeros with their
accumulated counts. -/
def modified_sainte_lague_allocation (votes : List (String × ℤ))
    (threshold : ℚ) (total_seats : ℤ) : Except PyError (List (String × ℕ)) :=
  if votes ≠ [] ∧ totalVotes votes = 0 then
    Except.error PyError.zeroDivisionError
  else if qualifiedParties votes threshold = [] then
    Except.ok (votes.map fun pw => (pw.1, 0))
  else
    Except.ok (votes.map fun pw =>
      (pw.1, if pw.1 ∈ (qualifiedParties votes threshold).map Prod.fst
             then allocSeats (qualifiedParties votes threshold) total_seats.toNat pw.1
             else 0))

/-- Python's `int(...)` on a (rational-valued) float: truncation toward zero. -/
def pythonInt (q : ℚ) : ℤ := if 0 ≤ q then ⌊q⌋ else -⌊-q⌋

/-- `simulate_from_percentages` (source lines 65-83): convert each percentage
to `int(percentage * 100000 / 100)` votes and allocate.  The `threshold`
argument models the instance attribute `self.threshold`. -/
def simulate_from_percentages (threshold : ℚ) (pcts : List (String × ℚ))
    (total_seats : ℤ) : Except PyError (List (String × ℕ)) :=
  modified_sainte_lague_allocation
    (pcts.map fun pp => (pp.1, pythonInt (pp.2 * 100000 / 100)))
    threshold total_seats

/-- Seat count of party `p` in a result dict (first entry with key `p`). -/
def seatsOf (r : List (String × ℕ)) (p : String) : ℕ :=
  match r with
  | [] => 0
  | e :: r => if e.1 = p then e.2 else seatsOf r p

/-- The qualification filter of the trace recreation in `streamlit_app`
(source lines 305-309): a party is kept iff its raw percentage satisfies
`pct >= simulator.threshold * 100`. -/
def qualifiedPercent (pcts : List (String × ℚ)) (threshold : ℚ) :
    List (String × ℚ) :=
  pcts.filter fun pp => decide (threshold * 100 ≤ pp.2)

/-- One trace entry (source lines 329-334): seat number (1-based), winner,
winning quotient, winner's updated cumulative count. -/
abbrev TraceStep := ℕ × String × ℚ × ℕ

/-- The loop of source lines 314-334: running seat counts together with the
accumulated `allocation_steps`; a step is appended only when the quotient
dict is non-empty (line 325). -/
def traceRun (Q : List (String × ℚ)) : ℕ → ((String → ℕ) × List TraceStep)
  | 0 => (fun _ => 0, [])
  | t + 1 =>
    let prev := traceRun Q t
    match firstMax (fun pp => pp.2 / divisor (prev.1 pp.1)) Q with
    | none => prev
    | some m =>
      (fun n => if n = m.1 then prev.1 n + 1 else prev.1 n,
       prev.2 ++ [(t + 1, m.1, m.2 / divisor (prev.1 m.1), prev.1 m.1 + 1)])

/-- The step-by-step allocation trace displayed by `streamlit_app`
(source lines 304-338). -/
def allocation_steps (pcts : List (String × ℚ)) (threshold : ℚ)
    (total_seats : ℕ) : List TraceStep :=
  (traceRun (qualifiedPercent pcts threshold) total_seats).2

/-! ### Auxiliary notions used only by the proofs -/

/-- Position of the first occurrence of a name in a list of names. -/
def posOf (n : String) : List String → ℕ
  | [] => 0
  | m :: l => if m = n then 0 else posOf n l + 1

/-- Weight recorded for name `n` in a vote dict (first occurrence). -/
def wtOf : List (String × ℤ) → String → ℤ
  | [], _ => 0
  | e :: r, n => if e.1 = n then e.2 else wtOf r n

/-- Whether an allocation outcome is a raised exception. -/
def isError : Except PyError (List (String × ℕ)) → Bool
  | Except.error _ => true
  | Except.ok _ => false

/-- Quotient of the `k`-th seat (0-based) of the party named `n` in `Q`. -/
def val (Q : List (String × ℤ)) (n : String) (k : ℕ) : ℚ :=
  (wtOf Q n : ℚ) / divisor k

/-- Priority of (party, seat-ordinal) items, exactly as the greedy loop
awards them: strictly larger quotient first; on a quotient tie the party
listed first in `Q` (Python `max` keeps the first maximum); within one
party the earlier seat ordinal. -/
def Prec (Q : List (String × ℤ)) (x y : String × ℕ) : Prop :=
  val Q y.1 y.2 < val Q x.1 x.2 ∨
    (val Q x.1 x.2 = val Q y.1 y.2 ∧
      (posOf x.1 (Q.map Prod.fst) < posOf y.1 (Q.map Prod.fst) ∨
        (x.1 = y.1 ∧ x.2 < y.2)))

/-- The greedy invariant: at every stage of the loop, every already-awarded
(party, seat) item strictly precedes every pending item. -/
def Equilib (Q : List (String × ℤ)) (s : String → ℕ) : Prop :=
  ∀ q ∈ Q.map Prod.fst, ∀ r ∈ Q.map Prod.fst,
    0 < s r → Prec Q (r, s r - 1) (q, s q)

/-! ### Divisor facts -/

theorem divisor_pos (n : ℕ) : 0 < divisor n := by
  unfold divisor
  split
  · norm_num
  · positivity

theorem divisor_mono {a b : ℕ} (h : a ≤ b) : divisor a ≤ divisor b := by
  unfold divisor
  rcases Nat.eq_zero_or_pos a with ha | ha
  · subst ha
    rcases Nat.eq_zero_or_pos b with hb | hb
    · simp [hb]
    · have hb' : b ≠ 0 := Nat.pos_iff_ne_zero.mp hb
      have : (1 : ℚ) ≤ (b : ℚ) := by exact_mod_cast hb
      rw [if_pos rfl, if_neg hb']
      nlinarith
  · have ha' : a ≠ 0 := Nat.pos_iff_ne_zero.mp ha
    have hb' : b ≠ 0 := Nat.pos_iff_ne_zero.mp (lt_of_lt_of_le ha h)
    have : (a : ℚ) ≤ (b : ℚ) := by exact_mod_cast h
    simp only [if_neg ha', if_neg hb']
    nlinarith

/-! ### `firstMax` facts -/

theorem firstMax_cons {α : Type} (f : α → ℚ) (a : α) (as : List α) :
    firstMax f (a :: as) =
      match firstMax f as with
      | none => some a
      | some m => some (if f a < f m then m else a) := rfl

theorem firstMax_eq_none_iff {α : Type} (f : α → ℚ) (l : List α) :
    firstMax f l = none ↔ l = [] := by
  cases l with
  | nil => simp [firstMax]
  | cons a as =>
    rw [firstMax_cons]
    cases firstMax f as <;> simp

theorem firstMax_mem {α : Type} {f : α → ℚ} :
    ∀ {l : List α} {m : α}, firstMax f l = some m → m ∈ l := by
  intro l
  induction l with
  | nil => intro m h; simp [firstMax] at h
  | cons a as ih =>
    intro m h
    rw [firstMax_cons] at h
    cases hr : firstMax f as with
    | none => rw [hr] at h; simp at h; simp [h]
    | some mt =>
      rw [hr] at h
      simp only [Option.some_inj] at h
      by_cases hc : f a < f mt
      · rw [if_pos hc] at h
        exact List.mem_cons_of_mem a (h ▸ ih hr)
      · rw [if_neg hc] at h
        simp [h]

theorem le_of_firstMax {α : Type} {f : α → ℚ} :
    ∀ {l : List α} {m : α}, firstMax f l = some m → ∀ x ∈ l, f x ≤ f m := by
  intro l
  induction l with
  | nil => intro m h; simp [firstMax] at h
  | cons a as ih =>
    intro m h x hx
    rw [firstMax_cons] at h
    cases hr : firstMax f as with
    | none =>
      rw [hr] at h
      simp only [Option.some_inj] at h
      have : as = [] := (firstMax_eq_none_iff f as).mp hr
      subst this
      simp at hx
      simp [hx, ← h]
    | some mt =>
      rw [hr] at h
      simp only [Option.some_inj] at h
      rcases List.mem_cons.mp hx with hxa | hxas
      · subst hxa
        by_cases hc : f x < f mt
        · rw [if_pos hc] at h; exact le_of_lt (h ▸ hc)
        · rw [if_neg hc] at h; exact le_of_eq (by rw [h])
      · have hle : f x ≤ f mt := ih hr x hxas
        by_cases hc : f a < f mt
        · rw [if_pos hc] at h; exact h ▸ hle
        · rw [if_neg hc] at h
          rw [← h]
          exact le_trans hle (le_of_not_lt hc)

/-- The first element whose value strictly dominates everything before it and
weakly dominates everything after it is the `firstMax`: the deterministic
tie-break of Python's `max`. -/
theorem firstMax_of_first {α : Type} {f : α → ℚ} {m : α} :
    ∀ (l₁ l₂ : List α), (∀ x ∈ l₁, f x < f m) → (∀ x ∈ l₂, f x ≤ f m) →
      firstMax f (l₁ ++ m :: l₂) = some m := by
  intro l₁
  induction l₁ with
  | nil =>
    intro l₂ _ h₂
    rw [List.nil_append, firstMax_cons]
    cases hr : firstMax f l₂ with
    | none => rfl
    | some mt =>
      have : f mt ≤ f m := h₂ mt (firstMax_mem hr)
      simp [not_lt_of_ge this]
  | cons a t ih =>
    intro l₂ h₁ h₂
    have hrec : firstMax f (t ++ m :: l₂) = some m :=
      ih l₂ (fun x hx => h₁ x (List.mem_cons_of_mem a hx)) h₂
    rw [List.cons_append, firstMax_cons, hrec]
    simp [h₁ a (List.mem_cons_self a t)]

/-! ### `posOf` and `wtOf` facts -/

theorem posOf_cons_self (n : String) (l : List String) : posOf n (n :: l) = 0 := by
  simp [posOf]

theorem posOf_cons_ne {a n : String} (h : a ≠ n) (l : List String) :
    posOf n (a :: l) = posOf n l + 1 := by
  simp [posOf, h]

theorem posOf_append_of_mem {n : String} :
    ∀ {L : List String} (M : List String), n ∈ L → posOf n (L ++ M) < L.length := by
  intro L
  induction L with
  | nil => intro M h; simp at h
  | cons a t ih =>
    intro M h
    by_cases ha : a = n
    · simp [posOf, ha]
    · rcases List.mem_cons.mp h with h1 | h2
      · exact absurd h1.symm ha
      · simp only [List.cons_append, posOf, if_neg ha, List.length_cons]
        exact Nat.succ_lt_succ (ih M h2)

theorem posOf_append_of_not_mem {n : String} :
    ∀ {L : List String} (M : List String), n ∉ L →
      posOf n (L ++ M) = L.length + posOf n M := by
  intro L
  induction L with
  | nil => intro M _; simp
  | cons a t ih =>
    intro M h
    have ha : a ≠ n := fun e => h (e ▸ List.mem_cons_self a t)
    rw [List.cons_append, posOf_cons_ne ha, List.length_cons,
      ih M (fun hm => h (List.mem_cons_of_mem a hm))]
    omega

theorem posOf_inj {q r : String} :
    ∀ {l : List String}, q ∈ l → r ∈ l → posOf q l = posOf r l → q = r := by
  intro l
  induction l with
  | nil => intro h; simp at h
  | cons a t ih =>
    intro hq hr h
    by_cases haq : a = q <;> by_cases har : a = r
    · rw [← haq, ← har]
    · rw [posOf, if_pos haq, posOf, if_neg har] at h
      omega
    · rw [posOf, if_neg haq, posOf, if_pos har] at h
      omega
    · rw [posOf, if_neg haq, posOf, if_neg har] at h
      have hq' : q ∈ t := by
        rcases List.mem_cons.mp hq with h1 | h2
        · exact absurd h1.symm haq
        · exact h2
      have hr' : r ∈ t := by
        rcases List.mem_cons.mp hr with h1 | h2
        · exact absurd h1.symm har
        · exact h2
      exact ih hq' hr' (by omega)

theorem wtOf_eq_of_mem :
    ∀ {votes : List (String × ℤ)}, (votes.map Prod.fst).Nodup →
      ∀ {pw : String × ℤ}, pw ∈ votes → wtOf votes pw.1 = pw.2 := by
  intro votes
  induction votes with
  | nil => intro _ pw h; simp at h
  | cons e r ih =>
    intro hN pw h
    rcases List.mem_cons.mp h with h1 | h2
    · subst h1; simp [wtOf]
    · have hne : e.1 ≠ pw.1 := by
        intro hcontra
        have : pw.1 ∈ r.map Prod.fst := List.mem_map_of_mem Prod.fst h2
        rw [List.map_cons, List.nodup_cons] at hN
        exact hN.1 (hcontra ▸ this)
      rw [wtOf, if_neg hne]
      exact ih (by rw [List.map_cons, List.nodup_cons] at hN; exact hN.2) h2

theorem wtOf_nonneg {votes : List (String × ℤ)}
    (h : ∀ pw ∈ votes, 0 ≤ pw.2) (n : String) : 0 ≤ wtOf votes n := by
  induction votes with
  | nil => simp [wtOf]
  | cons e r ih =>
    rw [wtOf]
    split
    · exact h e (List.mem_cons_self e r)
    · exact ih fun pw hpw => h pw (List.mem_cons_of_mem e hpw)

/-- `firstMax` with distinct names: every element strictly before the winner
(in `posOf` order) has a strictly smaller value. -/
theorem firstMax_pos_lt {α : Type} {f : α → ℚ} {nm : α → String} :
    ∀ {l : List α} {m : α}, (l.map nm).Nodup → firstMax f l = some m →
      ∀ x ∈ l, posOf (nm x) (l.map nm) < posOf (nm m) (l.map nm) → f x < f m := by
  intro l
  induction l with
  | nil => intro m _ h; simp [firstMax] at h
  | cons a as ih =>
    intro m hN h x hx hpos
    rw [firstMax_cons] at h
    cases hr : firstMax f as with
    | none =>
      rw [hr] at h
      simp only [Option.some_inj] at h
      have : as = [] := (firstMax_eq_none_iff f as).mp hr
      subst this
      have hxa : x = a := by simpa using hx
      subst hxa
      rw [← h] at hpos
      exact absurd hpos (lt_irrefl _)
    | some mt =>
      rw [hr] at h
      simp only [Option.some_inj] at h
      rw [List.map_cons, List.nodup_cons] at hN
      by_cases hc : f a < f mt
      · rw [if_pos hc] at h
        rcases List.mem_cons.mp hx with hxa | hxas
        · rw [hxa, ← h]; exact hc
        · have hmtas : mt ∈ as := firstMax_mem hr
          have hanm : nm a ≠ nm x :=
            fun e => hN.1 (e ▸ List.mem_map_of_mem nm hxas)
          have hanmm : nm a ≠ nm mt :=
            fun e => hN.1 (e ▸ List.mem_map_of_mem nm hmtas)
          rw [List.map_cons, ← h] at hpos
          rw [posOf_cons_ne hanm, posOf_cons_ne hanmm] at hpos
          rw [← h]
          exact ih hN.2 hr x hxas (by omega)
      · rw [if_neg hc] at h
        rw [List.map_cons, ← h, posOf_cons_self] at hpos
        omega

/-! ### Allocation-loop facts -/

theorem allocStep_of_winner {Q : List (String × ℤ)} {s : String → ℕ}
    {m : String × ℤ} (h : firstMax (quotientOf s) Q = some m) :
    allocStep Q s = fun n => if n = m.1 then s n + 1 else s n := by
  unfold allocStep
  rw [h]

theorem allocStep_of_none {Q : List (String × ℤ)} {s : String → ℕ}
    (h : firstMax (quotientOf s) Q = none) : allocStep Q s = s := by
  unfold allocStep
  rw [h]

theorem sum_map_update {M : List String} {n₀ : String} {s : String → ℕ}
    (hN : M.Nodup) (hm : n₀ ∈ M) :
    (M.map fun n => if n = n₀ then s n + 1 else s n).sum = (M.map s).sum + 1 := by
  induction M with
  | nil => simp at hm
  | cons a t ih =>
    rw [List.nodup_cons] at hN
    rcases List.mem_cons.mp hm with h1 | h2
    · have htail : (t.map fun n => if n = n₀ then s n + 1 else s n) = t.map s := by
        apply List.map_congr_left
        intro x hx
        have hxne : x ≠ n₀ := by
          intro e
          exact hN.1 (by rw [← h1, ← e]; exact hx)
        rw [if_neg hxne]
      rw [List.map_cons, List.map_cons, htail, if_pos h1.symm, List.sum_cons,
        List.sum_cons]
      omega
    · have hane : a ≠ n₀ := fun e => hN.1 (e ▸ h2)
      rw [List.map_cons, List.map_cons, List.sum_cons, List.sum_cons,
        if_neg hane, ih hN.2 h2]
      omega

/-- Conservation at the level of the inner loop: with a non-empty qualified
list, every round awards exactly one seat. -/
theorem sum_allocSeats {Q : List (String × ℤ)}
    (hN : (Q.map Prod.fst).Nodup) (hQ : Q ≠ []) :
    ∀ T, ((Q.map Prod.fst).map (allocSeats Q T)).sum = T := by
  intro T
  induction T with
  | zero =>
    have h0 : allocSeats Q 0 = fun _ => 0 := rfl
    rw [h0]
    apply List.sum_eq_zero
    intro x hx
    rcases List.mem_map.mp hx with ⟨n, _, hn⟩
    simpa using hn.symm
  | succ t ih =>
    have hstep : allocSeats Q (t + 1) = allocStep Q (allocSeats Q t) := rfl
    cases hFM : firstMax (quotientOf (allocSeats Q t)) Q with
    | none =>
      exact absurd ((firstMax_eq_none_iff _ _).mp hFM) hQ
    | some m =>
      have hmn : m.1 ∈ Q.map Prod.fst :=
        List.mem_map_of_mem Prod.fst (firstMax_mem hFM)
      rw [hstep, allocStep_of_winner hFM, sum_map_update hN hmn, ih]

/-! ### The priority order on (party, seat-index) items

`Prec Q x y` says that item `x` (a party name together with a seat ordinal)
is strictly preferred to item `y` by the greedy loop on `Q`: either its
quotient is strictly larger, or the quotients tie and `x`'s party comes
first in `Q` (Python `max` keeps the first maximum), or they are the same
party and `x` is that party's earlier seat. -/

theorem Prec_irrefl (Q : List (String × ℤ)) (x : String × ℕ) : ¬ Prec Q x x := by
  rintro (h | ⟨_, h | ⟨_, h⟩⟩) <;> exact absurd h (lt_irrefl _)

theorem Prec_trans {Q : List (String × ℤ)} {x y z : String × ℕ}
    (h₁ : Prec Q x y) (h₂ : Prec Q y z) : Prec Q x z := by
  rcases h₁ with hv | ⟨he, ht⟩ <;> rcases h₂ with hv' | ⟨he', ht'⟩
  · exact Or.inl (lt_trans hv' hv)
  · exact Or.inl (he' ▸ hv)
  · exact Or.inl (lt_of_lt_of_le hv' (le_of_eq he.symm))
  · refine Or.inr ⟨he.trans he', ?_⟩
    rcases ht with hp | ⟨hn, hk⟩ <;> rcases ht' with hp' | ⟨hn', hk'⟩
    · exact Or.inl (lt_trans hp hp')
    · exact Or.inl (hn' ▸ hp)
    · exact Or.inl (by rw [hn]; exact hp')
    · exact Or.inr ⟨hn.trans hn', lt_trans hk hk'⟩

theorem val_anti {Q : List (String × ℤ)} {q : String} (hw : 0 ≤ wtOf Q q)
    {k k' : ℕ} (hk : k ≤ k') : val Q q k' ≤ val Q q k := by
  unfold val
  have h1 : (0 : ℚ) ≤ (wtOf Q q : ℚ) := by exact_mod_cast hw
  rw [div_le_div_iff₀ (divisor_pos k') (divisor_pos k)]
  nlinarith [divisor_mono hk, divisor_pos k, divisor_pos k']

/-- Left weakening: an earlier seat of the same party is at least as strong. -/
theorem Prec_of_le_left {Q : List (String × ℤ)} {q : String} {k k' : ℕ}
    {z : String × ℕ} (hw : 0 ≤ wtOf Q q) (hk : k ≤ k')
    (h : Prec Q (q, k') z) : Prec Q (q, k) z := by
  have hval : val Q q k' ≤ val Q q k := val_anti hw hk
  rcases h with hv | ⟨he, ht⟩
  · exact Or.inl (lt_of_lt_of_le hv hval)
  · rcases lt_or_eq_of_le hval with hlt | heq
    · exact Or.inl (he ▸ hlt)
    · refine Or.inr ⟨heq.symm.trans he, ?_⟩
      rcases ht with hp | ⟨hn, hkz⟩
      · exact Or.inl hp
      · exact Or.inr ⟨hn, lt_of_le_of_lt hk hkz⟩

/-- Right weakening: a later seat of the same party is at most as strong. -/
theorem Prec_of_le_right {Q : List (String × ℤ)} {p : String} {l l' : ℕ}
    {z : String × ℕ} (hw : 0 ≤ wtOf Q p) (hl : l ≤ l')
    (h : Prec Q z (p, l)) : Prec Q z (p, l') := by
  have hval : val Q p l' ≤ val Q p l := val_anti hw hl
  rcases h with hv | ⟨he, ht⟩
  · exact Or.inl (lt_of_le_of_lt hval hv)
  · rcases lt_or_eq_of_le hval with hlt | heq
    · exact Or.inl (he ▸ hlt)
    · refine Or.inr ⟨he.trans heq.symm, ?_⟩
      rcases ht with hp | ⟨hn, hkz⟩
      · exact Or.inl hp
      · exact Or.inr ⟨hn, lt_of_lt_of_le hkz hl⟩

theorem Prec_self_succ {Q : List (String × ℤ)} {q : String} {k : ℕ}
    (hw : 0 ≤ wtOf Q q) : Prec Q (q, k) (q, k + 1) := by
  rcases lt_or_eq_of_le (val_anti hw (Nat.le_succ k)) with hlt | heq
  · exact Or.inl hlt
  · exact Or.inr ⟨heq.symm, Or.inr ⟨rfl, Nat.lt_succ_self k⟩⟩

theorem quotientOf_eq_val {Q : List (String × ℤ)}
    (hN : (Q.map Prod.fst).Nodup) {pw : String × ℤ} (hpw : pw ∈ Q)
    (s : String → ℕ) : quotientOf s pw = val Q pw.1 (s pw.1) := by
  unfold quotientOf val
  rw [wtOf_eq_of_mem hN hpw]

theorem equilib_allocSeats {Q : List (String × ℤ)}
    (hN : (Q.map Prod.fst).Nodup) (hnn : ∀ pw ∈ Q, 0 ≤ pw.2) :
    ∀ T, Equilib Q (allocSeats Q T) := by
  intro T
  induction T with
  | zero =>
    intro q hq r hr h0
    exact absurd h0 (lt_irrefl 0)
  | succ t ih =>
    have hstep : allocSeats Q (t + 1) = allocStep Q (allocSeats Q t) := rfl
    set s := allocSeats Q t with hs
    cases hFM : firstMax (quotientOf s) Q with
    | none =>
      rw [hstep, allocStep_of_none hFM]
      exact ih
    | some m =>
      rw [hstep, allocStep_of_winner hFM]
      have hmQ : m ∈ Q := firstMax_mem hFM
      have hmn : m.1 ∈ Q.map Prod.fst := List.mem_map_of_mem Prod.fst hmQ
      have hwm : 0 ≤ wtOf Q m.1 := wtOf_nonneg hnn m.1
      have hub : ∀ q ∈ Q.map Prod.fst, val Q q (s q) ≤ val Q m.1 (s m.1) := by
        intro q hq
        rcases List.mem_map.mp hq with ⟨x, hxQ, hx1⟩
        rw [← hx1, ← quotientOf_eq_val hN hxQ s, ← quotientOf_eq_val hN hmQ s]
        exact le_of_firstMax hFM x hxQ
      have hstrict : ∀ q ∈ Q.map Prod.fst,
          posOf q (Q.map Prod.fst) < posOf m.1 (Q.map Prod.fst) →
          val Q q (s q) < val Q m.1 (s m.1) := by
        intro q hq hpos
        rcases List.mem_map.mp hq with ⟨x, hxQ, hx1⟩
        rw [← hx1, ← quotientOf_eq_val hN hxQ s, ← quotientOf_eq_val hN hmQ s]
        exact firstMax_pos_lt hN hFM x hxQ (by rw [hx1]; exact hpos)
      have hwin : ∀ q ∈ Q.map Prod.fst,
          Prec Q (m.1, s m.1) (q, if q = m.1 then s q + 1 else s q) := by
        intro q hq
        by_cases hqm : q = m.1
        · rw [if_pos hqm, hqm]
          exact Prec_self_succ hwm
        · rw [if_neg hqm]
          rcases lt_trichotomy (posOf q (Q.map Prod.fst))
              (posOf m.1 (Q.map Prod.fst)) with hlt | heq | hgt
          · exact Or.inl (hstrict q hq hlt)
          · exact absurd (posOf_inj hq hmn heq) hqm
          · rcases lt_or_eq_of_le (hub q hq) with hv | hv
            · exact Or.inl hv
            · exact Or.inr ⟨hv.symm, Or.inl hgt⟩
      intro q hq r hr h0
      dsimp only at h0 ⊢
      by_cases hrm : r = m.1
      · rw [if_pos hrm] at h0 ⊢
        rw [hrm, Nat.add_sub_cancel]
        exact hwin q hq
      · rw [if_neg hrm] at h0 ⊢
        by_cases hqm : q = m.1
        · rw [if_pos hqm, hqm]
          exact Prec_trans (ih m.1 hmn r hr h0) (Prec_self_succ hwm)
        · rw [if_neg hqm]
          exact ih q hq r hr h0

theorem filter_sublist_filter {α : Type} (pb pa : α → Bool) :
    ∀ (l : List α), (∀ x ∈ l, pb x = true → pa x = true) →
      (l.filter pb).Sublist (l.filter pa) := by
  intro l
  induction l with
  | nil => intro _; simp
  | cons a t ih =>
    intro h
    have hrec := ih fun x hx => h x (List.mem_cons_of_mem a hx)
    rw [List.filter_cons, List.filter_cons]
    by_cases hb : pb a = true
    · rw [if_pos hb, if_pos (h a (List.mem_cons_self a t) hb)]
      exact hrec.cons₂ a
    · rw [if_neg hb]
      by_cases ha : pa a = true
      · rw [if_pos ha]
        exact hrec.cons a
      · rw [if_neg ha]
        exact hrec

theorem sublist_sum_le : ∀ {l₁ l₂ : List ℕ}, l₁.Sublist l₂ → l₁.sum ≤ l₂.sum := by
  intro l₁ l₂ h
  induction h with
  | slnil => exact le_refl 0
  | cons a h ih => rw [List.sum_cons]; omega
  | cons₂ a h ih => rw [List.sum_cons, List.sum_cons]; omega

/-- If `b` beats `a` at `p` but the `b`-total does not exceed the `a`-total,
some other name must go the other way. -/
theorem exists_flip_of_sum {L : List String} {a b : String → ℕ} {p : String}
    (hN : L.Nodup) (hp : p ∈ L) (hsum : (L.map b).sum ≤ (L.map a).sum)
    (hlt : a p < b p) : ∃ q ∈ L, q ≠ p ∧ b q < a q := by
  by_contra hcon
  push_neg at hcon
  have hperm : L.Perm (p :: L.erase p) := List.perm_cons_erase hp
  have ha : (L.map a).sum = a p + ((L.erase p).map a).sum := by
    rw [(hperm.map a).sum_eq, List.map_cons, List.sum_cons]
  have hb : (L.map b).sum = b p + ((L.erase p).map b).sum := by
    rw [(hperm.map b).sum_eq, List.map_cons, List.sum_cons]
  have hpoint : ((L.erase p).map a).sum ≤ ((L.erase p).map b).sum := by
    apply List.sum_le_sum
    intro q hq
    rcases hN.mem_erase_iff.mp hq with ⟨hqp, hqL⟩
    exact hcon q hqL hqp
  omega

/-- Main comparison theorem.  Run the greedy loop on
`F₁ ++ (p, w) :: F₂` and on `G₁ ++ (p, w') :: G₂` where `G₁, G₂` are
sublists of `F₁, F₂` and `w ≤ w'`: dropping competitors and increasing `p`'s
weight can never lose `p` a seat.  Proved by exchanging the equilibrium
certificates of the two runs. -/
theorem allocSeats_le_shift (F₁ F₂ G₁ G₂ : List (String × ℤ)) (p : String)
    (w w' : ℤ) (hs₁ : G₁.Sublist F₁) (hs₂ : G₂.Sublist F₂) (hw : w ≤ w')
    (hN : ((F₁ ++ (p, w) :: F₂).map Prod.fst).Nodup)
    (hnn : ∀ pw ∈ F₁ ++ (p, w) :: F₂, 0 ≤ pw.2) (T : ℕ) :
    allocSeats (F₁ ++ (p, w) :: F₂) T p ≤
      allocSeats (G₁ ++ (p, w') :: G₂) T p := by
  set QA := F₁ ++ (p, w) :: F₂ with hQA
  set QB := G₁ ++ (p, w') :: G₂ with hQB
  have hw0 : 0 ≤ w := hnn (p, w) (by rw [hQA]; exact List.mem_append_right _ (List.mem_cons_self _ _))
  have hw'0 : 0 ≤ w' := le_trans hw0 hw
  -- name lists
  have hnamesA : QA.map Prod.fst = F₁.map Prod.fst ++ p :: F₂.map Prod.fst := by
    rw [hQA, List.map_append, List.map_cons]
  have hnamesB : QB.map Prod.fst = G₁.map Prod.fst ++ p :: G₂.map Prod.fst := by
    rw [hQB, List.map_append, List.map_cons]
  have hsubNames : (QB.map Prod.fst).Sublist (QA.map Prod.fst) := by
    rw [hnamesA, hnamesB]
    exact (hs₁.map Prod.fst).append ((hs₂.map Prod.fst).cons₂ p)
  have hNB : (QB.map Prod.fst).Nodup := hN.sublist hsubNames
  have hnnB : ∀ pw ∈ QB, 0 ≤ pw.2 := by
    intro x hx
    rw [hQB] at hx
    rcases List.mem_append.mp hx with hx1 | hx2
    · exact hnn x (List.mem_append_left _ (hs₁.subset hx1))
    · rcases List.mem_cons.mp hx2 with hxp | hx3
      · rw [hxp]; exact hw'0
      · exact hnn x (List.mem_append_right _ (List.mem_cons_of_mem _ (hs₂.subset hx3)))
  have hpA : (p, w) ∈ QA := by
    rw [hQA]; exact List.mem_append_right _ (List.mem_cons_self _ _)
  have hpB : (p, w') ∈ QB := by
    rw [hQB]; exact List.mem_append_right _ (List.mem_cons_self _ _)
  have hpnA : p ∈ QA.map Prod.fst := List.mem_map_of_mem Prod.fst hpA
  have hpnB : p ∈ QB.map Prod.fst := List.mem_map_of_mem Prod.fst hpB
  have hwtAp : wtOf QA p = w := wtOf_eq_of_mem hN hpA
  have hwtBp : wtOf QB p = w' := wtOf_eq_of_mem hNB hpB
  -- weights of shared non-`p` names agree
  have hwt : ∀ q ∈ QB.map Prod.fst, q ≠ p → wtOf QB q = wtOf QA q := by
    intro q hq hqp
    rcases List.mem_map.mp hq with ⟨x, hxB, hx1⟩
    have hxA : x ∈ QA := by
      rw [hQB] at hxB
      rcases List.mem_append.mp hxB with hx1' | hx2'
      · rw [hQA]; exact List.mem_append_left _ (hs₁.subset hx1')
      · rcases List.mem_cons.mp hx2' with hxp | hx3'
        · exact absurd (by rw [← hx1, hxp]) hqp
        · rw [hQA]
          exact List.mem_append_right _ (List.mem_cons_of_mem _ (hs₂.subset hx3'))
    rw [← hx1, wtOf_eq_of_mem hNB hxB, wtOf_eq_of_mem hN hxA]
  -- position dominance transfers from `QB` to `QA`
  have hposp : ∀ q ∈ QB.map Prod.fst, q ≠ p →
      posOf q (QB.map Prod.fst) < posOf p (QB.map Prod.fst) →
      posOf q (QA.map Prod.fst) < posOf p (QA.map Prod.fst) := by
    intro q hq hqp hposB
    have hpG₁ : p ∉ G₁.map Prod.fst := by
      rw [hnamesB] at hNB
      rcases List.nodup_append.mp hNB with ⟨-, -, hdisj⟩
      exact fun hmem => hdisj hmem (List.mem_cons_self _ _)
    have hpF₁ : p ∉ F₁.map Prod.fst := by
      rw [hnamesA] at hN
      rcases List.nodup_append.mp hN with ⟨-, -, hdisj⟩
      exact fun hmem => hdisj hmem (List.mem_cons_self _ _)
    have hposBp : posOf p (QB.map Prod.fst) = (G₁.map Prod.fst).length := by
      rw [hnamesB, posOf_append_of_not_mem _ hpG₁, posOf_cons_self]
      omega
    have hqG₁ : q ∈ G₁.map Prod.fst := by
      rw [hnamesB] at hq
      rcases List.mem_append.mp hq with h1 | h2
      · exact h1
      · rcases List.mem_cons.mp h2 with h3 | h4
        · exact absurd h3 hqp
        · exfalso
          have hqnotG₁ : q ∉ G₁.map Prod.fst := by
            rw [hnamesB] at hNB
            rcases List.nodup_append.mp hNB with ⟨-, -, hdisj⟩
            exact fun hmem => hdisj hmem (List.mem_cons_of_mem _ h4)
          have : posOf q (QB.map Prod.fst) =
              (G₁.map Prod.fst).length + (posOf q (G₂.map Prod.fst) + 1) := by
            rw [hnamesB, posOf_append_of_not_mem _ hqnotG₁, posOf_cons_ne hqp.symm]
          omega
    have hqF₁ : q ∈ F₁.map Prod.fst := (hs₁.map Prod.fst).subset hqG₁
    have h1 : posOf q (QA.map Prod.fst) < (F₁.map Prod.fst).length := by
      rw [hnamesA]; exact posOf_append_of_mem _ hqF₁
    have h2 : posOf p (QA.map Prod.fst) = (F₁.map Prod.fst).length := by
      rw [hnamesA, posOf_append_of_not_mem _ hpF₁, posOf_cons_self]
      omega
    omega
  -- the contradiction argument
  by_contra hcon
  push_neg at hcon
  set a := allocSeats QA T with ha
  set b := allocSeats QB T with hb
  have hQAne : QA ≠ [] := by rw [hQA]; simp
  have hQBne : QB ≠ [] := by rw [hQB]; simp
  have hsumA : ((QA.map Prod.fst).map a).sum = T := sum_allocSeats hN hQAne T
  have hsumB : ((QB.map Prod.fst).map b).sum = T := sum_allocSeats hNB hQBne T
  have hsum : ((QB.map Prod.fst).map a).sum ≤ ((QB.map Prod.fst).map b).sum := by
    calc ((QB.map Prod.fst).map a).sum
        ≤ ((QA.map Prod.fst).map a).sum := sublist_sum_le (hsubNames.map a)
      _ = T := hsumA
      _ = ((QB.map Prod.fst).map b).sum := hsumB.symm
  obtain ⟨q, hqB, hqp, hq⟩ := exists_flip_of_sum hNB hpnB hsum hcon
  have h0a : 0 < a p := lt_of_le_of_lt (Nat.zero_le _) hcon
  have h0b : 0 < b q := lt_of_le_of_lt (Nat.zero_le _) hq
  have hqnA : q ∈ QA.map Prod.fst := hsubNames.subset hqB
  have hEA : Prec QA (p, a p - 1) (q, a q) :=
    equilib_allocSeats hN hnn T q hqnA p hpnA h0a
  have hEB : Prec QB (q, b q - 1) (p, b p) :=
    equilib_allocSeats hNB hnnB T p hpnB q hqB h0b
  have hvq : ∀ k, val QB q k = val QA q k := by
    intro k
    unfold val
    rw [hwt q hqB hqp]
  have hvp : ∀ k, val QA p k ≤ val QB p k := by
    intro k
    unfold val
    rw [hwtAp, hwtBp]
    rw [div_le_div_iff₀ (divisor_pos k) (divisor_pos k)]
    have hcast : (w : ℚ) ≤ (w' : ℚ) := by exact_mod_cast hw
    nlinarith [divisor_pos k]
  have hEB' : Prec QA (q, b q - 1) (p, b p) := by
    rcases hEB with hv | ⟨he, ht⟩
    · exact Or.inl (lt_of_le_of_lt (hvp (b p)) (lt_of_lt_of_le hv (le_of_eq (hvq (b q - 1)))))
    · rcases ht with hposB | ⟨hname, -⟩
      · have hvA : val QA p (b p) ≤ val QA q (b q - 1) := by
          rw [← hvq (b q - 1), he]
          exact hvp (b p)
        rcases lt_or_eq_of_le hvA with hlt | heq
        · exact Or.inl hlt
        · exact Or.inr ⟨heq.symm, Or.inl (hposp q hqB hqp hposB)⟩
      · exact absurd hname hqp
  have hwq : 0 ≤ wtOf QA q := wtOf_nonneg hnn q
  have hwp : 0 ≤ wtOf QA p := wtOf_nonneg hnn p
  have h2 : Prec QA (q, a q) (p, b p) :=
    Prec_of_le_left hwq (by omega) hEB'
  have h3 : Prec QA (q, a q) (p, a p - 1) :=
    Prec_of_le_right hwp (by omega) h2
  exact Prec_irrefl QA (q, a q) (Prec_trans h3 hEA)

/-! ### Branch behaviour of `modified_sainte_lague_allocation` -/

theorem alloc_zero_total {votes : List (String × ℤ)} {t : ℚ} {T : ℤ}
    (h1 : votes ≠ []) (h2 : totalVotes votes = 0) :
    modified_sainte_lague_allocation votes t T =
      Except.error PyError.zeroDivisionError := by
  unfold modified_sainte_lague_allocation
  rw [if_pos ⟨h1, h2⟩]

theorem alloc_no_qualified {votes : List (String × ℤ)} {t : ℚ} {T : ℤ}
    (h : ¬(votes ≠ [] ∧ totalVotes votes = 0))
    (hq : qualifiedParties votes t = []) :
    modified_sainte_lague_allocation votes t T =
      Except.ok (votes.map fun pw => (pw.1, 0)) := by
  unfold modified_sainte_lague_allocation
  rw [if_neg h, if_pos hq]

theorem alloc_qualified {votes : List (String × ℤ)} {t : ℚ} {T : ℤ}
    (h : ¬(votes ≠ [] ∧ totalVotes votes = 0))
    (hq : qualifiedParties votes t ≠ []) :
    modified_sainte_lague_allocation votes t T =
      Except.ok (votes.map fun pw =>
        (pw.1, if pw.1 ∈ (qualifiedParties votes t).map Prod.fst
               then allocSeats (qualifiedParties votes t) T.toNat pw.1
               else 0)) := by
  unfold modified_sainte_lague_allocation
  rw [if_neg h, if_neg hq]

theorem mem_qualifiedParties {votes : List (String × ℤ)} {t : ℚ}
    {pw : String × ℤ} :
    pw ∈ qualifiedParties votes t ↔
      pw ∈ votes ∧ t ≤ (pw.2 : ℚ) / (totalVotes votes : ℚ) := by
  unfold qualifiedParties
  rw [List.mem_filter, decide_eq_true_eq]

theorem seatsOf_map (votes : List (String × ℤ)) (v : String → ℕ) (p : String) :
    seatsOf (votes.map fun pw => (pw.1, v pw.1)) p =
      if p ∈ votes.map Prod.fst then v p else 0 := by
  induction votes with
  | nil => simp [seatsOf]
  | cons e r ih =>
    rw [List.map_cons, seatsOf]
    by_cases he : e.1 = p
    · rw [if_pos he, List.map_cons, if_pos (he ▸ List.mem_cons_self e.1 _), he]
    · rw [if_neg he, ih, List.map_cons]
      by_cases hm : p ∈ r.map Prod.fst
      · rw [if_pos hm, if_pos (List.mem_cons_of_mem e.1 hm)]
      · rw [if_neg hm, if_neg (by
          intro hcontra
          rcases List.mem_cons.mp hcontra with h1 | h2
          · exact he h1.symm
          · exact hm h2)]

theorem totalVotes_nonneg {l : List (String × ℤ)}
    (h : ∀ pw ∈ l, 0 ≤ pw.2) : 0 ≤ totalVotes l := by
  apply List.sum_nonneg
  intro x hx
  rcases List.mem_map.mp hx with ⟨pw, hpw, hsnd⟩
  exact hsnd ▸ h pw hpw

theorem totalVotes_decomp (V₁ V₂ : List (String × ℤ)) (p : String) (w : ℤ) :
    totalVotes (V₁ ++ (p, w) :: V₂) = totalVotes V₁ + w + totalVotes V₂ := by
  unfold totalVotes
  rw [List.map_append, List.sum_append, List.map_cons, List.sum_cons]
  ring

/-- Splitting the seat sums of the returned dict by qualification. -/
theorem sum_map_if {s : String → ℕ} :
    ∀ {votes : List (String × ℤ)} {M : List String},
      (votes.map Prod.fst).Nodup → (∀ n ∈ M, n ∈ votes.map Prod.fst) →
      M.Nodup →
      (votes.map fun pw => if pw.1 ∈ M then s pw.1 else 0).sum = (M.map s).sum := by
  intro votes
  induction votes with
  | nil =>
    intro M _ hsub _
    have hM : M = [] := List.eq_nil_iff_forall_not_mem.mpr fun n hn => by
      simpa using hsub n hn
    rw [hM]
    simp
  | cons e r ih =>
    intro M hN hsub hM
    rw [List.map_cons, List.nodup_cons] at hN
    rw [List.map_cons, List.sum_cons]
    by_cases hm : e.1 ∈ M
    · have hperm : M.Perm (e.1 :: M.erase e.1) := List.perm_cons_erase hm
      have hRHS : (M.map s).sum = s e.1 + ((M.erase e.1).map s).sum := by
        rw [(hperm.map s).sum_eq, List.map_cons, List.sum_cons]
      have htail :
          (r.map fun pw => if pw.1 ∈ M then s pw.1 else 0) =
            r.map fun pw => if pw.1 ∈ M.erase e.1 then s pw.1 else 0 := by
        apply List.map_congr_left
        intro x hx
        have hxe : x.1 ≠ e.1 :=
          fun hcontra => hN.1 (hcontra ▸ List.mem_map_of_mem Prod.fst hx)
        by_cases hxm : x.1 ∈ M
        · rw [if_pos hxm, if_pos (hM.mem_erase_iff.mpr ⟨hxe, hxm⟩)]
        · rw [if_neg hxm, if_neg (fun hcontra => hxm (List.mem_of_mem_erase hcontra))]
      rw [if_pos hm, htail, hRHS,
        ih hN.2 (fun n hn => by
          have hn' : n ∈ M := List.mem_of_mem_erase hn
          have hne : n ≠ e.1 := (hM.mem_erase_iff.mp hn).1
          rcases List.mem_cons.mp (hsub n hn') with h1 | h2
          · exact absurd h1 hne
          · exact h2) (hM.erase e.1)]
    · rw [if_neg hm,
        ih hN.2 (fun n hn => by
          rcases List.mem_cons.mp (hsub n hn) with h1 | h2
          · exact absurd (h1 ▸ hn) hm
          · exact h2) hM]
      omega

/-- The seat count reported for a qualified party is the inner loop's count. -/
theorem seatsOf_alloc {votes : List (String × ℤ)} {t : ℚ} {T : ℤ} {p : String}
    (hg : ¬(votes ≠ [] ∧ totalVotes votes = 0))
    (hq : qualifiedParties votes t ≠ [])
    (hp : p ∈ (qualifiedParties votes t).map Prod.fst) :
    ∃ r, modified_sainte_lague_allocation votes t T = Except.ok r ∧
      seatsOf r p = allocSeats (qualifiedParties votes t) T.toNat p := by
  refine ⟨_, alloc_qualified hg hq, ?_⟩
  rw [seatsOf_map votes (fun n => if n ∈ (qualifiedParties votes t).map Prod.fst
      then allocSeats (qualifiedParties votes t) T.toNat n else 0) p]
  have hpv : p ∈ votes.map Prod.fst :=
    ((List.filter_sublist votes).map Prod.fst).subset hp
  rw [if_pos hpv, if_pos hp]

/-! ### The claims -/

/-- C1: for every vote dict (distinct keys), threshold and seat target with
at least one qualifying party (positive total and share at least the
threshold), the allocation returns and its seat counts sum to the seat
target. -/
theorem claim1_conservation (votes : List (String × ℤ)) (t : ℚ) (T : ℕ)
    (hN : (votes.map Prod.fst).Nodup)
    (hq : ∃ pw ∈ votes, 0 < totalVotes votes ∧
      t ≤ (pw.2 : ℚ) / (totalVotes votes : ℚ)) :
    ∃ r, modified_sainte_lague_allocation votes t (T : ℤ) = Except.ok r ∧
      (r.map Prod.snd).sum = T := by
  obtain ⟨pw, hmem, hpos, hshare⟩ := hq
  have hg : ¬(votes ≠ [] ∧ totalVotes votes = 0) := fun hand => by
    rcases hand with ⟨-, h2⟩
    omega
  have hpwQ : pw ∈ qualifiedParties votes t :=
    mem_qualifiedParties.mpr ⟨hmem, hshare⟩
  have hQne : qualifiedParties votes t ≠ [] := List.ne_nil_of_mem hpwQ
  have hQN : ((qualifiedParties votes t).map Prod.fst).Nodup :=
    hN.sublist ((List.filter_sublist votes).map Prod.fst)
  have hsub : ∀ n ∈ (qualifiedParties votes t).map Prod.fst,
      n ∈ votes.map Prod.fst :=
    fun n hn => ((List.filter_sublist votes).map Prod.fst).subset hn
  refine ⟨_, alloc_qualified hg hQne, ?_⟩
  rw [List.map_map]
  have hcomp :
      (votes.map (Prod.snd ∘ fun pw' =>
        (pw'.1, if pw'.1 ∈ (qualifiedParties votes t).map Prod.fst
                then allocSeats (qualifiedParties votes t) (T : ℤ).toNat pw'.1
                else 0))) =
      votes.map fun pw' =>
        if pw'.1 ∈ (qualifiedParties votes t).map Prod.fst
        then allocSeats (qualifiedParties votes t) (T : ℤ).toNat pw'.1
        else 0 := rfl
  rw [hcomp, sum_map_if hN hsub hQN, Int.toNat_natCast]
  exact sum_allocSeats hQN hQne T

theorem claim1_conservation_witness :
    ∃ r, modified_sainte_lague_allocation [("A", 60), ("B", 25), ("C", 15)]
        (1 / 25) ((10 : ℕ) : ℤ) = Except.ok r ∧
      (r.map Prod.snd).sum = 10 :=
  claim1_conservation [("A", 60), ("B", 25), ("C", 15)] (1 / 25) 10
    (by decide) ⟨("A", 60), by decide, by decide, by norm_num [totalVotes]⟩

/-- C2: the spec says an all-zero, non-empty vote dict must not divide by
zero and must yield the all-zero allocation, but line 31 of the source
divides by `total_valid_votes = 0` and raises `ZeroDivisionError`: evaluated
here at the failing input `{"A": 0}`. -/
theorem claim2_all_zero_votes_raise :
    modified_sainte_lague_allocation [("A", 0)] (1 / 25) 10 =
      Except.error PyError.zeroDivisionError :=
  alloc_zero_total (by decide) (by decide)

/-- C3 (counterexample): the claim predicts an `InvalidInput` failure on an
empty vote dict, but the code returns the empty allocation with no error. -/
theorem claim3_counterexample :
    modified_sainte_lague_allocation [] (1 / 25) 10 = Except.ok [] := rfl

/-- C3 (amended): the allocation never raises an `InvalidInput` error; the
only failure is a `ZeroDivisionError`, raised exactly when the vote dict is
non-empty and its weights sum to 0.  Empty dicts, negative weights with a
non-zero total, and negative seat targets all complete without failure. -/
theorem claim3_error_iff (votes : List (String × ℤ)) (t : ℚ) (T : ℤ) :
    isError (modified_sainte_lague_allocation votes t T) = true ↔
      votes ≠ [] ∧ totalVotes votes = 0 := by
  constructor
  · intro h
    by_contra hcon
    rcases eq_or_ne (qualifiedParties votes t) [] with hq | hq
    · rw [alloc_no_qualified hcon hq] at h
      exact absurd h (by simp [isError])
    · rw [alloc_qualified hcon hq] at h
      exact absurd h (by simp [isError])
  · intro hand
    rw [alloc_zero_total hand.1 hand.2]
    rfl

theorem claim3_error_iff_witness :
    isError (modified_sainte_lague_allocation [("A", 0), ("B", 0)] (1 / 25) 3) =
      true :=
  (claim3_error_iff [("A", 0), ("B", 0)] (1 / 25) 3).mpr ⟨by decide, by decide⟩

/-- C4: with positive total valid votes, a listed party belongs to the
qualified set if and only if its share is at least the threshold; a share
exactly equal to the threshold qualifies and any smaller share does not. -/
theorem claim4_threshold_iff (votes : List (String × ℤ)) (t : ℚ)
    (pw : String × ℤ) (hpos : 0 < totalVotes votes) (hmem : pw ∈ votes) :
    pw ∈ qualifiedParties votes t ↔
      t ≤ (pw.2 : ℚ) / (totalVotes votes : ℚ) := by
  rw [mem_qualifiedParties]
  exact and_iff_right hmem

theorem claim4_threshold_iff_witness :
    ("B", (4 : ℤ)) ∈ qualifiedParties [("A", 96), ("B", 4)] (1 / 25) :=
  (claim4_threshold_iff [("A", 96), ("B", 4)] (1 / 25) ("B", 4)
    (by decide) (by decide)).mpr (by norm_num [totalVotes])

/-- C5: whenever the allocation returns a result, its key list is exactly
the input's key list (in input order): filtered-out parties stay present. -/
theorem claim5_key_coverage (votes : List (String × ℤ)) (t : ℚ) (T : ℤ)
    (r : List (String × ℕ))
    (h : modified_sainte_lague_allocation votes t T = Except.ok r) :
    r.map Prod.fst = votes.map Prod.fst := by
  by_cases hg : votes ≠ [] ∧ totalVotes votes = 0
  · rw [alloc_zero_total hg.1 hg.2] at h
    exact absurd h (by simp)
  · rcases eq_or_ne (qualifiedParties votes t) [] with hq | hq
    · rw [alloc_no_qualified hg hq] at h
      injection h with h'
      rw [← h', List.map_map]
      rfl
    · rw [alloc_qualified hg hq] at h
      injection h with h'
      rw [← h', List.map_map]
      rfl

theorem claim5_key_coverage_witness :
    ([(("A" : String), (0 : ℕ))]).map Prod.fst =
      ([(("A" : String), (1 : ℤ))]).map Prod.fst :=
  claim5_key_coverage [("A", 1)] 2 7 [("A", 0)]
    (by
      rw [alloc_no_qualified (by decide) (by
        unfold qualifiedParties
        rw [List.filter_cons, List.filter_nil, if_neg (by norm_num [totalVotes])])]
      rfl)

/-- C10: a negative seat target raises nothing and yields 0 seats for every
input party (same as a target of zero), whenever the total is positive. -/
theorem claim10_negative_seats (votes : List (String × ℤ)) (t : ℚ) (T : ℤ)
    (hpos : 0 < totalVotes votes) (hT : T < 0) :
    modified_sainte_lague_allocation votes t T =
      Except.ok (votes.map fun pw => (pw.1, 0)) := by
  have hg : ¬(votes ≠ [] ∧ totalVotes votes = 0) := fun hand => by
    rcases hand with ⟨-, h2⟩
    omega
  rcases eq_or_ne (qualifiedParties votes t) [] with hq | hq
  · exact alloc_no_qualified hg hq
  · rw [alloc_qualified hg hq]
    congr 1
    apply List.map_congr_left
    intro pw _
    rw [Int.toNat_of_nonpos (le_of_lt hT)]
    have h0 : allocSeats (qualifiedParties votes t) 0 pw.1 = 0 := rfl
    rw [h0, ite_self]

theorem claim10_negative_seats_witness :
    modified_sainte_lague_allocation [("A", 5), ("B", 7)] (1 / 25) (-3) =
      Except.ok ([("A", 5), ("B", 7)].map fun pw => (pw.1, 0)) :=
  claim10_negative_seats [("A", 5), ("B", 7)] (1 / 25) (-3) (by decide) (by decide)

theorem traceRun_succ (Q : List (String × ℚ)) (t : ℕ) :
    traceRun Q (t + 1) =
      match firstMax (fun pp => pp.2 / divisor ((traceRun Q t).1 pp.1)) Q with
      | none => traceRun Q t
      | some m =>
        (fun n => if n = m.1 then (traceRun Q t).1 n + 1 else (traceRun Q t).1 n,
         (traceRun Q t).2 ++
           [(t + 1, m.1, m.2 / divisor ((traceRun Q t).1 m.1),
             (traceRun Q t).1 m.1 + 1)]) := rfl

theorem traceRun_length (Q : List (String × ℚ)) :
    ∀ T, ((traceRun Q T).2).length = if Q = [] then 0 else T := by
  intro T
  induction T with
  | zero =>
    have h0 : traceRun Q 0 = (fun _ => 0, []) := rfl
    rw [h0]
    split <;> rfl
  | succ t ih =>
    rw [traceRun_succ]
    cases hFM : firstMax (fun pp => pp.2 / divisor ((traceRun Q t).1 pp.1)) Q with
    | none =>
      have hQnil : Q = [] := (firstMax_eq_none_iff _ _).mp hFM
      dsimp only
      rw [ih, if_pos hQnil, if_pos hQnil]
    | some m =>
      have hQne : Q ≠ [] := by
        intro h
        rw [h] at hFM
        exact absurd hFM (by rw [(firstMax_eq_none_iff _ []).mpr rfl]; simp)
      dsimp only
      rw [List.length_append, ih, if_neg hQne, if_neg hQne]
      rfl

/-- C6: the displayed step-by-step trace has exactly `total_seats` entries
when at least one party clears the trace's threshold rule
(`pct >= threshold * 100`), and is empty otherwise. -/
theorem claim6_trace_length (pcts : List (String × ℚ)) (t : ℚ) (T : ℕ) :
    (allocation_steps pcts t T).length =
      if ∃ pp ∈ pcts, t * 100 ≤ pp.2 then T else 0 := by
  unfold allocation_steps
  rw [traceRun_length (qualifiedPercent pcts t) T]
  by_cases hex : ∃ pp ∈ pcts, t * 100 ≤ pp.2
  · have hne : qualifiedPercent pcts t ≠ [] := by
      obtain ⟨pp, hmem, hle⟩ := hex
      exact List.ne_nil_of_mem (List.mem_filter.mpr ⟨hmem, decide_eq_true hle⟩)
    rw [if_neg hne, if_pos hex]
  · have hnil : qualifiedPercent pcts t = [] := by
      apply List.eq_nil_iff_forall_not_mem.mpr
      intro pp hpp
      rcases List.mem_filter.mp hpp with ⟨hmem, hdec⟩
      exact hex ⟨pp, hmem, of_decide_eq_true hdec⟩
    rw [if_pos hnil, if_neg hex]

/-- C8: `simulate_from_percentages` allocates from the integer weights
`int(percentage * 100000 / 100)`, and on the documented 0-100 percentage
range this conversion is exactly truncation toward zero: the weight is the
unique integer in `(value - 1, value]`. -/
theorem claim8_percentage_conversion (t : ℚ) (pcts : List (String × ℚ))
    (T : ℤ) :
    simulate_from_percentages t pcts T =
      modified_sainte_lague_allocation
        (pcts.map fun pp => (pp.1, pythonInt (pp.2 * 100000 / 100))) t T ∧
    ∀ q : ℚ, 0 ≤ q →
      ((pythonInt q : ℚ) ≤ q ∧ q < (pythonInt q : ℚ) + 1 ∧ 0 ≤ pythonInt q) := by
  refine ⟨rfl, fun q hq => ?_⟩
  unfold pythonInt
  rw [if_pos hq]
  exact ⟨Int.floor_le q, Int.lt_floor_add_one q, Int.floor_nonneg.mpr hq⟩

theorem claim8_percentage_conversion_witness :
    (pythonInt ((26.2 : ℚ) * 100000 / 100) : ℚ) ≤ (26.2 : ℚ) * 100000 / 100 ∧
      (26.2 : ℚ) * 100000 / 100 < (pythonInt ((26.2 : ℚ) * 100000 / 100) : ℚ) + 1 ∧
      0 ≤ pythonInt ((26.2 : ℚ) * 100000 / 100) :=
  (claim8_percentage_conversion (1 / 25) [] 0).2 ((26.2 : ℚ) * 100000 / 100)
    (by norm_num)

/-- C9: in any allocation round, when several qualified parties tie on the
strictly maximal quotient, the seat goes to the tied party occurring
earliest in the qualified dict's insertion order (the one all of whose
predecessors have strictly smaller quotients); no error is raised and the
winner's count increments by one. -/
theorem claim9_tie_first_wins (l₁ l₂ : List (String × ℤ)) (a : String × ℤ)
    (s : String → ℕ)
    (hmax : ∀ x ∈ l₁ ++ a :: l₂, quotientOf s x ≤ quotientOf s a)
    (hstrict : ∀ x ∈ l₁, quotientOf s x < quotientOf s a)
    (htie : ∃ b ∈ l₂, quotientOf s b = quotientOf s a) :
    firstMax (quotientOf s) (l₁ ++ a :: l₂) = some a ∧
      allocStep (l₁ ++ a :: l₂) s a.1 = s a.1 + 1 := by
  have hFM : firstMax (quotientOf s) (l₁ ++ a :: l₂) = some a :=
    firstMax_of_first l₁ l₂ hstrict
      (fun x hx => hmax x (List.mem_append_right l₁ (List.mem_cons_of_mem a hx)))
  refine ⟨hFM, ?_⟩
  rw [allocStep_of_winner hFM]
  dsimp only
  rw [if_pos rfl]

theorem claim9_tie_first_wins_witness :
    firstMax (quotientOf fun _ => 0) ([] ++ ("A", (10 : ℤ)) :: [("B", 10)]) =
      some ("A", 10) ∧
    allocStep ([] ++ ("A", (10 : ℤ)) :: [("B", 10)]) (fun _ => 0)
        ("A", (10 : ℤ)).1 = (fun _ : String => 0) ("A", (10 : ℤ)).1 + 1 :=
  claim9_tie_first_wins [] [("B", 10)] ("A", 10) (fun _ => 0)
    (by
      intro x hx
      have hx' : x = ("A", (10 : ℤ)) ∨ x = ("B", 10) := by simpa using hx
      rcases hx' with h | h <;> subst h
      · exact le_refl _
      · exact le_of_eq rfl)
    (by intro x hx; simp at hx)
    ⟨("B", 10), by simp, rfl⟩

/-- C7: on a valid input where party `p` qualifies, increasing `p`'s vote
weight while holding all other weights, the threshold and the seat target
fixed never decreases `p`'s seat count in the returned allocation. -/
theorem claim7_vote_monotonicity (V₁ V₂ : List (String × ℤ)) (p : String)
    (w w' : ℤ) (t : ℚ) (T : ℕ)
    (hN : ((V₁ ++ (p, w) :: V₂).map Prod.fst).Nodup)
    (hnn : ∀ pw ∈ V₁ ++ (p, w) :: V₂, 0 ≤ pw.2)
    (hw : w < w')
    (hpos : 0 < totalVotes (V₁ ++ (p, w) :: V₂))
    (hqual : t ≤ (w : ℚ) / (totalVotes (V₁ ++ (p, w) :: V₂) : ℚ)) :
    ∃ r r',
      modified_sainte_lague_allocation (V₁ ++ (p, w) :: V₂) t (T : ℤ) =
        Except.ok r ∧
      modified_sainte_lague_allocation (V₁ ++ (p, w') :: V₂) t (T : ℤ) =
        Except.ok r' ∧
      seatsOf r p ≤ seatsOf r' p := by
  have hSd : totalVotes (V₁ ++ (p, w') :: V₂) =
      totalVotes (V₁ ++ (p, w) :: V₂) + (w' - w) := by
    rw [totalVotes_decomp, totalVotes_decomp]
    ring
  have hpos' : 0 < totalVotes (V₁ ++ (p, w') :: V₂) := by omega
  have hwS : w ≤ totalVotes (V₁ ++ (p, w) :: V₂) := by
    have h1 : 0 ≤ totalVotes V₁ :=
      totalVotes_nonneg fun x hx => hnn x (List.mem_append_left _ hx)
    have h2 : 0 ≤ totalVotes V₂ :=
      totalVotes_nonneg fun x hx =>
        hnn x (List.mem_append_right _ (List.mem_cons_of_mem _ hx))
    rw [totalVotes_decomp]
    omega
  have hposQ : (0 : ℚ) < (totalVotes (V₁ ++ (p, w) :: V₂) : ℚ) := by
    exact_mod_cast hpos
  have hposQ' : (0 : ℚ) < (totalVotes (V₁ ++ (p, w') :: V₂) : ℚ) := by
    exact_mod_cast hpos'
  have hqual' : t ≤ (w' : ℚ) / (totalVotes (V₁ ++ (p, w') :: V₂) : ℚ) := by
    refine le_trans hqual ?_
    rw [div_le_div_iff₀ hposQ hposQ']
    have hZ : w * totalVotes (V₁ ++ (p, w') :: V₂) ≤
        w' * totalVotes (V₁ ++ (p, w) :: V₂) := by nlinarith
    exact_mod_cast hZ
  have hdrop : ∀ x : String × ℤ, 0 ≤ x.2 →
      t ≤ (x.2 : ℚ) / (totalVotes (V₁ ++ (p, w') :: V₂) : ℚ) →
      t ≤ (x.2 : ℚ) / (totalVotes (V₁ ++ (p, w) :: V₂) : ℚ) := by
    intro x hx h
    refine le_trans h ?_
    rw [div_le_div_iff₀ hposQ' hposQ]
    have hZ : x.2 * totalVotes (V₁ ++ (p, w) :: V₂) ≤
        x.2 * totalVotes (V₁ ++ (p, w') :: V₂) := by nlinarith
    exact_mod_cast hZ
  set pA := fun pw : String × ℤ =>
    decide (t ≤ (pw.2 : ℚ) / (totalVotes (V₁ ++ (p, w) :: V₂) : ℚ)) with hpAdef
  set pB := fun pw : String × ℤ =>
    decide (t ≤ (pw.2 : ℚ) / (totalVotes (V₁ ++ (p, w') :: V₂) : ℚ)) with hpBdef
  have hpAp : pA (p, w) = true := decide_eq_true hqual
  have hpBp : pB (p, w') = true := decide_eq_true hqual'
  have hQAeq : qualifiedParties (V₁ ++ (p, w) :: V₂) t =
      V₁.filter pA ++ (p, w) :: V₂.filter pA := by
    show (V₁ ++ (p, w) :: V₂).filter pA = _
    rw [List.filter_append, List.filter_cons, if_pos hpAp]
  have hQBeq : qualifiedParties (V₁ ++ (p, w') :: V₂) t =
      V₁.filter pB ++ (p, w') :: V₂.filter pB := by
    show (V₁ ++ (p, w') :: V₂).filter pB = _
    rw [List.filter_append, List.filter_cons, if_pos hpBp]
  have hmemA : (p, w) ∈ qualifiedParties (V₁ ++ (p, w) :: V₂) t := by
    rw [hQAeq]
    exact List.mem_append_right _ (List.mem_cons_self _ _)
  have hmemB : (p, w') ∈ qualifiedParties (V₁ ++ (p, w') :: V₂) t := by
    rw [hQBeq]
    exact List.mem_append_right _ (List.mem_cons_self _ _)
  have hgA : ¬(V₁ ++ (p, w) :: V₂ ≠ [] ∧ totalVotes (V₁ ++ (p, w) :: V₂) = 0) :=
    fun hand => by rcases hand with ⟨-, h2⟩; omega
  have hgB : ¬(V₁ ++ (p, w') :: V₂ ≠ [] ∧ totalVotes (V₁ ++ (p, w') :: V₂) = 0) :=
    fun hand => by rcases hand with ⟨-, h2⟩; omega
  obtain ⟨r, hr, hs⟩ := seatsOf_alloc (T := (T : ℤ)) hgA
    (List.ne_nil_of_mem hmemA) (List.mem_map_of_mem Prod.fst hmemA)
  obtain ⟨r', hr', hs'⟩ := seatsOf_alloc (T := (T : ℤ)) hgB
    (List.ne_nil_of_mem hmemB) (List.mem_map_of_mem Prod.fst hmemB)
  refine ⟨r, r', hr, hr', ?_⟩
  rw [hs, hs', hQAeq, hQBeq]
  have hNA : ((V₁.filter pA ++ (p, w) :: V₂.filter pA).map Prod.fst).Nodup := by
    rw [← hQAeq]
    exact hN.sublist ((List.filter_sublist _).map Prod.fst)
  have hnnA : ∀ pw ∈ V₁.filter pA ++ (p, w) :: V₂.filter pA, 0 ≤ pw.2 := by
    intro x hx
    rw [← hQAeq] at hx
    have hx' : x ∈ (V₁ ++ (p, w) :: V₂).filter pA := hx
    exact hnn x (List.mem_of_mem_filter hx')
  have hsub₁ : (V₁.filter pB).Sublist (V₁.filter pA) := by
    apply filter_sublist_filter
    intro x hx hbx
    exact decide_eq_true
      (hdrop x (hnn x (List.mem_append_left _ hx)) (of_decide_eq_true hbx))
  have hsub₂ : (V₂.filter pB).Sublist (V₂.filter pA) := by
    apply filter_sublist_filter
    intro x hx hbx
    exact decide_eq_true
      (hdrop x (hnn x (List.mem_append_right _ (List.mem_cons_of_mem _ hx)))
        (of_decide_eq_true hbx))
  exact allocSeats_le_shift (V₁.filter pA) (V₂.filter pA) (V₁.filter pB)
    (V₂.filter pB) p w w' hsub₁ hsub₂ (le_of_lt hw) hNA hnnA ((T : ℤ)).toNat

theorem claim7_vote_monotonicity_witness :
    ∃ r r',
      modified_sainte_lague_allocation ([("A", 60)] ++ ("B", (25 : ℤ)) :: [("C", 15)])
        (1 / 25) ((10 : ℕ) : ℤ) = Except.ok r ∧
      modified_sainte_lague_allocation ([("A", 60)] ++ ("B", (40 : ℤ)) :: [("C", 15)])
        (1 / 25) ((10 : ℕ) : ℤ) = Except.ok r' ∧
      seatsOf r "B" ≤ seatsOf r' "B" :=
  claim7_vote_monotonicity [("A", 60)] [("C", 15)] "B" 25 40 (1 / 25) 10
    (by decide) (by decide) (by decide) (by decide) (by norm_num [totalVotes])

end NorwayElection
